import Mathlib

/-!
Verification of the PoA node core (producer scheduler and follower relay).

The development shallowly embeds the two source modules:

* `poa_miner.rs` — the `PoaMiner` state (`last_timestamp`, `last_block_hashes`),
  its `forkchoice_state()` derivation and its `advance()` step.  Block hashes
  (`B256`) are modelled as `Nat`; `u64` timestamps are modelled as `Nat`
  (epoch-second values are far below any overflow boundary).  The `VecDeque`
  of recent hashes is a `List` whose head is the front (oldest) element:
  `push_back` is append, `pop_front` is `tail`, `get i` is `getD i`.
  The engine / payload-builder round trips of `advance` are inputs of the
  step function (an `AdvanceEnv`), so one call of `advance` is a pure
  function of the state and of what the collaborators answered.

* `poa_follower.rs` — the recursive JSON normalization
  `rename_uncles_to_ommers` over a model of `serde_json::Value` (objects are
  association lists; `serde_json`'s default map is a `BTreeMap`, so `insert`
  replaces an equal key and otherwise inserts at the sorted position, and
  `remove` drops the entry of the key), and the per-notification behaviour of
  `PoaFollower::run` (fetch outcome in, engine calls out; `none` models the
  panic of the `.unwrap()` on the fetch result).
-/

/-- Model of `serde_json::Value`: null, booleans, numbers, strings, arrays and
objects. Objects are association lists of key/value pairs (the entry order of
the underlying `BTreeMap`); numbers are collapsed to `Int`, which is enough
for every property proved here. -/
inductive Json where
  | null
  | bool (b : Bool)
  | num (n : Int)
  | str (s : String)
  | arr (items : List Json)
  | obj (fields : List (String × Json))

/-- Map lookup on an association list: the value stored under key `s`
(the lookup half of `BTreeMap::remove`, also `serde_json::Value`'s `get`). -/
def lookupKey (s : String) : List (String × Json) → Option Json
  | [] => none
  | (k', v') :: rest => if k' = s then some v' else lookupKey s rest

/-- The removal half of `BTreeMap::remove`: drop the entry stored under
key `s` (a `BTreeMap` holds a key at most once). -/
def removeKey (s : String) : List (String × Json) → List (String × Json)
  | [] => []
  | (k', v') :: rest => if k' = s then removeKey s rest else (k', v') :: removeKey s rest

/-- `BTreeMap::insert` on a key-sorted association list: replace the value of
an equal key, otherwise insert the pair at its sorted position. -/
def insertSorted (k : String) (v : Json) : List (String × Json) → List (String × Json)
  | [] => [(k, v)]
  | (k', v') :: rest =>
    if k = k' then (k, v) :: rest
    else if k < k' then (k, v) :: (k', v') :: rest
    else (k', v') :: insertSorted k v rest

/-- One object level of `rename_uncles_to_ommers`: the
`if let Some(uncles_value) = map.remove("uncles") { map.insert("ommers", uncles_value); }`
step.  When no `"uncles"` entry exists the map is untouched. -/
def renameStep (m : List (String × Json)) : List (String × Json) :=
  match lookupKey "uncles" m with
  | none => m
  | some uv => insertSorted "ommers" uv (removeKey "uncles" m)

theorem mem_insertSorted {kv : String × Json} {k : String} {v : Json} :
    ∀ {l : List (String × Json)}, kv ∈ insertSorted k v l → kv = (k, v) ∨ kv ∈ l := by
  intro l
  induction l with
  | nil => simp [insertSorted]
  | cons p rest ih =>
    obtain ⟨k', v'⟩ := p
    simp only [insertSorted]
    split
    · intro h
      rcases List.mem_cons.mp h with h | h
      · exact Or.inl h
      · exact Or.inr (List.mem_cons_of_mem _ h)
    · split
      · intro h
        rcases List.mem_cons.mp h with h | h
        · exact Or.inl h
        · exact Or.inr h
      · intro h
        rcases List.mem_cons.mp h with h | h
        · exact Or.inr (h ▸ List.mem_cons_self _ _)
        · rcases ih h with h | h
          · exact Or.inl h
          · exact Or.inr (List.mem_cons_of_mem _ h)

theorem mem_of_mem_removeKey {kv : String × Json} {s : String} :
    ∀ {l : List (String × Json)}, kv ∈ removeKey s l → kv ∈ l := by
  intro l
  induction l with
  | nil => simp [removeKey]
  | cons p rest ih =>
    obtain ⟨k', v'⟩ := p
    simp only [removeKey]
    split
    · intro h
      exact List.mem_cons_of_mem _ (ih h)
    · intro h
      rcases List.mem_cons.mp h with h | h
      · exact h ▸ List.mem_cons_self _ _
      · exact List.mem_cons_of_mem _ (ih h)

theorem key_ne_of_mem_removeKey {kv : String × Json} {s : String} :
    ∀ {l : List (String × Json)}, kv ∈ removeKey s l → kv.1 ≠ s := by
  intro l
  induction l with
  | nil => simp [removeKey]
  | cons p rest ih =>
    obtain ⟨k', v'⟩ := p
    simp only [removeKey]
    split
    · exact ih
    · rename_i hk
      intro h
      rcases List.mem_cons.mp h with h | h
      · subst h
        exact hk
      · exact ih h

theorem mem_of_lookupKey_eq_some {s : String} {v : Json} :
    ∀ {l : List (String × Json)}, lookupKey s l = some v → (s, v) ∈ l := by
  intro l
  induction l with
  | nil => simp [lookupKey]
  | cons p rest ih =>
    obtain ⟨k', v'⟩ := p
    simp only [lookupKey]
    split
    · rename_i hk
      intro h
      cases h
      subst hk
      exact List.mem_cons_self _ _
    · intro h
      exact List.mem_cons_of_mem _ (ih h)

theorem lookupKey_eq_none_iff {s : String} :
    ∀ {l : List (String × Json)}, lookupKey s l = none ↔ ∀ kv ∈ l, kv.1 ≠ s := by
  intro l
  induction l with
  | nil => simp [lookupKey]
  | cons p rest ih =>
    obtain ⟨k', v'⟩ := p
    simp only [lookupKey]
    split
    · rename_i hk
      subst hk
      constructor
      · intro h
        exact absurd h (by simp)
      · intro h
        exact absurd rfl (h (k', v') (List.mem_cons_self _ _))
    · rename_i hk
      rw [ih]
      constructor
      · intro h kv hkv
        rcases List.mem_cons.mp hkv with rfl | hkv
        · exact hk
        · exact h kv hkv
      · intro h kv hkv
        exact h kv (List.mem_cons_of_mem _ hkv)

/-- Every entry of `renameStep m` is an entry of `m`, except that the former
`"uncles"` entry may reappear with the key `"ommers"`. -/
theorem mem_renameStep {kv : String × Json} {m : List (String × Json)}
    (h : kv ∈ renameStep m) :
    kv ∈ m ∨ ∃ u, kv = ("ommers", u) ∧ ("uncles", u) ∈ m := by
  unfold renameStep at h
  split at h
  · exact Or.inl h
  · rename_i uv hv
    rcases mem_insertSorted h with h | h
    · exact Or.inr ⟨uv, h, mem_of_lookupKey_eq_some hv⟩
    · exact Or.inl (mem_of_mem_removeKey h)

theorem sizeOf_snd_lt_of_mem_renameStep {kv : String × Json} {m : List (String × Json)}
    (h : kv ∈ renameStep m) : sizeOf kv.2 < 1 + sizeOf m := by
  rcases mem_renameStep h with hmem | ⟨u, rfl, hmem⟩
  · have h1 := List.sizeOf_lt_of_mem hmem
    obtain ⟨a, b⟩ := kv
    simp only [Prod.mk.sizeOf_spec] at h1 ⊢
    omega
  · have h1 := List.sizeOf_lt_of_mem hmem
    simp only [Prod.mk.sizeOf_spec] at h1 ⊢
    omega

/-- `rename_uncles_to_ommers` from `poa_follower.rs`: rename the `"uncles"`
field of an object to `"ommers"` (the remove/insert of `renameStep`), then
recursively process every remaining value; recurse into every array item;
leave scalars alone.  (`List.attach` only carries the membership facts needed
for termination; the unfolding lemmas below remove it again.) -/
def rename_uncles_to_ommers : Json → Json
  | .null => .null
  | .bool b => .bool b
  | .num n => .num n
  | .str s => .str s
  | .arr items => .arr (items.attach.map (fun x => rename_uncles_to_ommers x.1))
  | .obj fields =>
      .obj ((renameStep fields).attach.map (fun kv => (kv.1.1, rename_uncles_to_ommers kv.1.2)))
termination_by j => sizeOf j
decreasing_by
  · have h1 := List.sizeOf_lt_of_mem x.2
    simp only [Json.arr.sizeOf_spec]
    omega
  · have h1 := sizeOf_snd_lt_of_mem_renameStep kv.2
    simp only [Json.obj.sizeOf_spec]
    omega

theorem rename_null : rename_uncles_to_ommers .null = .null := by
  rw [rename_uncles_to_ommers]

theorem rename_bool (b : Bool) : rename_uncles_to_ommers (.bool b) = .bool b := by
  rw [rename_uncles_to_ommers]

theorem rename_num (n : Int) : rename_uncles_to_ommers (.num n) = .num n := by
  rw [rename_uncles_to_ommers]

theorem rename_str (s : String) : rename_uncles_to_ommers (.str s) = .str s := by
  rw [rename_uncles_to_ommers]

theorem rename_arr (items : List Json) :
    rename_uncles_to_ommers (.arr items) = .arr (items.map rename_uncles_to_ommers) := by
  rw [rename_uncles_to_ommers]
  congr 1
  exact List.attach_map_val items rename_uncles_to_ommers

theorem rename_obj (fields : List (String × Json)) :
    rename_uncles_to_ommers (.obj fields)
      = .obj ((renameStep fields).map (fun kv => (kv.1, rename_uncles_to_ommers kv.2))) := by
  rw [rename_uncles_to_ommers]
  congr 1
  exact List.attach_map_val (renameStep fields) (fun kv => (kv.1, rename_uncles_to_ommers kv.2))

theorem attach_any {α : Type} (l : List α) (f : α → Bool) :
    (l.attach.any fun x => f x.1) = l.any f := by
  by_cases h : l.any f = true
  · rw [h, List.any_eq_true]
    rw [List.any_eq_true] at h
    obtain ⟨a, ha, hfa⟩ := h
    exact ⟨⟨a, ha⟩, List.mem_attach l ⟨a, ha⟩, hfa⟩
  · have h2 : l.any f = false := by simpa using h
    rw [h2, List.any_eq_false]
    rw [List.any_eq_false] at h2
    intro x _
    exact h2 x.1 x.2

/-- A JSON tree contains a field named `"uncles"` somewhere: some object of
the tree, at any nesting depth (also inside arrays), has an entry whose key
is `"uncles"`. -/
def hasUncles : Json → Bool
  | .null => false
  | .bool _ => false
  | .num _ => false
  | .str _ => false
  | .arr items => items.attach.any (fun x => hasUncles x.1)
  | .obj fields =>
      (fields.any (fun kv => kv.1 == "uncles")) || fields.attach.any (fun kv => hasUncles kv.1.2)
termination_by j => sizeOf j
decreasing_by
  · have h1 := List.sizeOf_lt_of_mem x.2
    simp only [Json.arr.sizeOf_spec]
    omega
  · have h1 := List.sizeOf_lt_of_mem kv.2
    obtain ⟨⟨a, b⟩, hk⟩ := kv
    simp only [Prod.mk.sizeOf_spec, Json.obj.sizeOf_spec] at h1 ⊢
    omega

theorem hasUncles_null : hasUncles .null = false := by rw [hasUncles]

theorem hasUncles_bool (b : Bool) : hasUncles (.bool b) = false := by rw [hasUncles]

theorem hasUncles_num (n : Int) : hasUncles (.num n) = false := by rw [hasUncles]

theorem hasUncles_str (s : String) : hasUncles (.str s) = false := by rw [hasUncles]

theorem hasUncles_arr (items : List Json) :
    hasUncles (.arr items) = items.any hasUncles := by
  rw [hasUncles]
  exact attach_any items hasUncles

theorem hasUncles_obj (fields : List (String × Json)) :
    hasUncles (.obj fields)
      = ((fields.any (fun kv => kv.1 == "uncles")) || fields.any (fun kv => hasUncles kv.2)) := by
  rw [hasUncles]
  congr 1
  exact attach_any fields (fun kv => hasUncles kv.2)

/-- `serde_json::Value::get(key)`: field access on an object, `none` on any
other kind of value (this is the accessor the repository's own tests use to
inspect the result of the normalization). -/
def Json.get : Json → String → Option Json
  | .obj fields, k => lookupKey k fields
  | _, _ => none

theorem lookupKey_insertSorted_self (k : String) (v : Json) :
    ∀ (l : List (String × Json)), lookupKey k (insertSorted k v l) = some v := by
  intro l
  induction l with
  | nil => simp [insertSorted, lookupKey]
  | cons p rest ih =>
    obtain ⟨k', v'⟩ := p
    simp only [insertSorted]
    split
    · simp [lookupKey]
    · split
      · simp [lookupKey]
      · rename_i hne _
        simp only [lookupKey]
        rw [if_neg (fun hke => hne hke.symm), ih]

theorem lookupKey_insertSorted_ne {k0 k : String} (v : Json) (hne : k0 ≠ k) :
    ∀ (l : List (String × Json)), lookupKey k0 (insertSorted k v l) = lookupKey k0 l := by
  intro l
  induction l with
  | nil =>
    simp only [insertSorted, lookupKey]
    rw [if_neg (fun h => hne h.symm)]
  | cons p rest ih =>
    obtain ⟨k', v'⟩ := p
    simp only [insertSorted]
    split
    · rename_i hkk
      subst hkk
      simp only [lookupKey]
      rw [if_neg (fun h => hne h.symm), if_neg (fun h => hne h.symm)]
    · split
      · simp only [lookupKey]
        rw [if_neg (fun h => hne h.symm)]
      · simp only [lookupKey]
        split
        · rfl
        · exact ih

theorem lookupKey_removeKey_ne {k0 s : String} (hne : k0 ≠ s) :
    ∀ (l : List (String × Json)), lookupKey k0 (removeKey s l) = lookupKey k0 l := by
  intro l
  induction l with
  | nil => rfl
  | cons p rest ih =>
    obtain ⟨k', v'⟩ := p
    simp only [removeKey]
    split
    · rename_i hks
      subst hks
      simp only [lookupKey]
      rw [if_neg (fun h => hne h.symm), ih]
    · simp only [lookupKey]
      split
      · rfl
      · exact ih

theorem lookupKey_removeKey_self (s : String) (l : List (String × Json)) :
    lookupKey s (removeKey s l) = none := by
  rw [lookupKey_eq_none_iff]
  intro kv hkv
  exact key_ne_of_mem_removeKey hkv

theorem lookupKey_renameStep_ne {k : String} (h1 : k ≠ "uncles") (h2 : k ≠ "ommers")
    (m : List (String × Json)) : lookupKey k (renameStep m) = lookupKey k m := by
  unfold renameStep
  split
  · rfl
  · rw [lookupKey_insertSorted_ne _ h2, lookupKey_removeKey_ne h1]

theorem lookupKey_renameStep_uncles (m : List (String × Json)) :
    lookupKey "uncles" (renameStep m) = none := by
  unfold renameStep
  split
  · assumption
  · rw [lookupKey_insertSorted_ne _ (by decide), lookupKey_removeKey_self]

theorem lookupKey_renameStep_ommers {m : List (String × Json)} {u : Json}
    (h : lookupKey "uncles" m = some u) : lookupKey "ommers" (renameStep m) = some u := by
  unfold renameStep
  rw [h]
  exact lookupKey_insertSorted_self _ _ _

theorem key_ne_uncles_of_mem_renameStep {kv : String × Json} {m : List (String × Json)}
    (h : kv ∈ renameStep m) : kv.1 ≠ "uncles" := by
  unfold renameStep at h
  split at h
  · rename_i hnone
    rw [lookupKey_eq_none_iff] at hnone
    exact hnone kv h
  · rcases mem_insertSorted h with rfl | h
    · simp
    · exact key_ne_of_mem_removeKey h

theorem lookupKey_map_value (f : Json → Json) (k : String) :
    ∀ (l : List (String × Json)),
      lookupKey k (l.map (fun kv => (kv.1, f kv.2))) = (lookupKey k l).map f := by
  intro l
  induction l with
  | nil => rfl
  | cons p rest ih =>
    obtain ⟨k', v'⟩ := p
    simp only [List.map, lookupKey]
    split
    · rfl
    · exact ih

/-- Induction over JSON trees: to prove a property of every tree it is enough
to prove it for the scalars and, for arrays and objects, assuming it for every
item and every field value. -/
theorem Json.induction {motive : Json → Prop}
    (hnull : motive .null) (hbool : ∀ b, motive (.bool b))
    (hnum : ∀ n, motive (.num n)) (hstr : ∀ s, motive (.str s))
    (harr : ∀ items, (∀ j ∈ items, motive j) → motive (.arr items))
    (hobj : ∀ fields, (∀ kv ∈ fields, motive kv.2) → motive (.obj fields)) :
    ∀ j, motive j := by
  have key : ∀ (n : Nat) (j : Json), sizeOf j ≤ n → motive j := by
    intro n
    induction n with
    | zero =>
      intro j hj
      cases j <;> simp_all
    | succ n ih =>
      intro j hj
      cases j with
      | null => exact hnull
      | bool b => exact hbool b
      | num m => exact hnum m
      | str s => exact hstr s
      | arr items =>
        apply harr
        intro x hx
        apply ih
        have h1 := List.sizeOf_lt_of_mem hx
        simp only [Json.arr.sizeOf_spec] at hj
        omega
      | obj fields =>
        apply hobj
        intro kv hkv
        apply ih
        have h1 := List.sizeOf_lt_of_mem hkv
        obtain ⟨a, b⟩ := kv
        simp only [Prod.mk.sizeOf_spec, Json.obj.sizeOf_spec] at h1 hj ⊢
        omega
  exact fun j => key (sizeOf j) j le_rfl

/-- After normalization no object of the tree, at any depth, still has a
field named `"uncles"`. -/
theorem hasUncles_rename_eq_false (j : Json) :
    hasUncles (rename_uncles_to_ommers j) = false := by
  induction j using Json.induction with
  | hnull => rw [rename_null, hasUncles_null]
  | hbool b => rw [rename_bool, hasUncles_bool]
  | hnum n => rw [rename_num, hasUncles_num]
  | hstr s => rw [rename_str, hasUncles_str]
  | harr items ih =>
    rw [rename_arr, hasUncles_arr, List.any_eq_false]
    intro x hx
    rcases List.mem_map.mp hx with ⟨y, hy, rfl⟩
    simp [ih y hy]
  | hobj fields ih =>
    rw [rename_obj, hasUncles_obj]
    apply Bool.or_eq_false_iff.mpr
    constructor
    · rw [List.any_eq_false]
      intro kv hkv
      rcases List.mem_map.mp hkv with ⟨kv', hkv', rfl⟩
      simpa using key_ne_uncles_of_mem_renameStep hkv'
    · rw [List.any_eq_false]
      intro kv hkv
      rcases List.mem_map.mp hkv with ⟨kv', hkv', rfl⟩
      rcases mem_renameStep hkv' with hmem | ⟨u, rfl, hmem⟩
      · simp [ih kv' hmem]
      · simpa using ih ("uncles", u) hmem

theorem map_eq_self_of_forall {α : Type} {l : List α} {f : α → α}
    (h : ∀ a ∈ l, f a = a) : l.map f = l := by
  induction l with
  | nil => rfl
  | cons a t ih =>
    simp only [List.map]
    rw [h a (List.mem_cons_self _ _), ih (fun b hb => h b (List.mem_cons_of_mem _ hb))]

/-- A tree without any `"uncles"` field anywhere is returned unchanged by the
normalization. -/
theorem rename_eq_self_of_hasUncles_eq_false {j : Json}
    (h : hasUncles j = false) : rename_uncles_to_ommers j = j := by
  induction j using Json.induction with
  | hnull => exact rename_null
  | hbool b => exact rename_bool b
  | hnum n => exact rename_num n
  | hstr s => exact rename_str s
  | harr items ih =>
    rw [rename_arr]
    rw [hasUncles_arr, List.any_eq_false] at h
    congr 1
    exact map_eq_self_of_forall (fun x hx => ih x hx (by simpa using h x hx))
  | hobj fields ih =>
    rw [rename_obj]
    rw [hasUncles_obj, Bool.or_eq_false_iff] at h
    obtain ⟨hkeys, hvals⟩ := h
    rw [List.any_eq_false] at hkeys hvals
    have hstep : renameStep fields = fields := by
      unfold renameStep
      have : lookupKey "uncles" fields = none := by
        rw [lookupKey_eq_none_iff]
        intro kv hkv
        simpa using hkeys kv hkv
      rw [this]
    rw [hstep]
    congr 1
    apply map_eq_self_of_forall
    intro kv hkv
    rw [ih kv hkv (by simpa using hvals kv hkv)]

/-- The forkchoice triple sent to the engine
(`reth::rpc::types::engine::ForkchoiceState`); hashes are modelled as `Nat`. -/
structure ForkchoiceState where
  head_block_hash : Nat
  safe_block_hash : Nat
  finalized_block_hash : Nat
deriving DecidableEq, Repr

/-- The mutable state of `PoaMiner` (`poa_miner.rs`).  The collaborator
handles (`payload_attributes_builder`, `to_engine`, `payload_builder`) are
opaque external services and are not part of the state; the answers they give
during one `advance` call are supplied through `AdvanceEnv` instead. -/
structure PoaMiner where
  /-- The block rate in seconds. -/
  interval : Nat
  /-- Timestamp for the next block. -/
  last_timestamp : Nat
  /-- Stores latest mined blocks, front = oldest. -/
  last_block_hashes : List Nat
deriving DecidableEq, Repr

/-- `PoaMiner::forkchoice_state`: head is `back()`, safe is the entry at
index `len().saturating_sub(32)`, finalized at `len().saturating_sub(64)`
(`Nat` subtraction is saturating).  The `getD`/`getLastD` defaults model the
`.expect("at least 1 block exists")` calls, which cannot fire on a non-empty
window. -/
def PoaMiner.forkchoice_state (m : PoaMiner) : ForkchoiceState :=
  { head_block_hash := m.last_block_hashes.getLastD 0
    safe_block_hash :=
      m.last_block_hashes.getD (m.last_block_hashes.length - 32) 0
    finalized_block_hash :=
      m.last_block_hashes.getD (m.last_block_hashes.length - 64) 0 }

/-- The engine's answer to the `fork_choice_updated` call of `advance`
(validity flag of the payload status and the optional payload id). -/
structure ForkchoiceUpdatedResponse where
  valid : Bool
  payload_id : Option Nat
deriving Repr

/-- Everything outside the miner's own state that one `advance` call
consumes: the wall clock and the three collaborator round trips, in call
order.  `Except.error` on a round trip is the `?` early return of the
`await?`; `resolved_payload` is the `Option<Result<_>>` returned by
`payload_builder.resolve_kind` (the built block is identified by its hash);
`new_payload_response` carries the validity flag of the `new_payload`
answer. -/
structure AdvanceEnv where
  /-- `SystemTime::now().duration_since(UNIX_EPOCH).as_secs()`. -/
  now : Nat
  forkchoice_response : Except String ForkchoiceUpdatedResponse
  resolved_payload : Option (Except String Nat)
  new_payload_response : Except String Bool

/-- `PoaMiner::advance`: compute the candidate timestamp, run the
forkchoice-updated / resolve-payload / new-payload sequence, and only when
every step succeeded commit the timestamp and push the new block hash
(evicting the front entry when the window would exceed 64).  Each early
`bail!`/`?` return leaves the state exactly as it was, so the function
returns the state after the call together with the `eyre::Result<()>`. -/
def PoaMiner.advance (m : PoaMiner) (env : AdvanceEnv) : PoaMiner × Except String Unit :=
  match env.forkchoice_response with
  | .error e => (m, .error e)
  | .ok res =>
    if !res.valid then (m, .error "Invalid payload status")
    else
      match res.payload_id with
      | none => (m, .error "No payload id")
      | some _ =>
        match env.resolved_payload with
        | some (.ok block_hash) =>
          match env.new_payload_response with
          | .error e => (m, .error e)
          | .ok npValid =>
            if !npValid then (m, .error "Invalid payload")
            else
              ({ m with
                  last_timestamp := max (m.last_timestamp + 1) env.now
                  last_block_hashes :=
                    if (m.last_block_hashes ++ [block_hash]).length > 64
                    then (m.last_block_hashes ++ [block_hash]).tail
                    else m.last_block_hashes ++ [block_hash] },
               .ok ())
        | _ => (m, .error "No payload")

/-- A sequence of production ticks: each tick runs `advance` against the
answers the collaborators gave on that tick (the run loop keeps the state
unchanged when a tick fails, exactly as `advance` itself reports it). -/
def PoaMiner.advanceAll (m : PoaMiner) : List AdvanceEnv → PoaMiner
  | [] => m
  | env :: rest => PoaMiner.advanceAll (m.advance env).1 rest

/-- Case analysis of one `advance` call that failed: the state is returned
untouched. -/
theorem advance_error_state (m : PoaMiner) (env : AdvanceEnv) (e : String)
    (h : (m.advance env).2 = .error e) : (m.advance env).1 = m := by
  cases hf : env.forkchoice_response with
  | error e0 => simp [PoaMiner.advance, hf]
  | ok res =>
    cases hv : res.valid with
    | false => simp [PoaMiner.advance, hf, hv]
    | true =>
      cases hp : res.payload_id with
      | none => simp [PoaMiner.advance, hf, hv, hp]
      | some pid =>
        cases hr : env.resolved_payload with
        | none => simp [PoaMiner.advance, hf, hv, hp, hr]
        | some r =>
          cases r with
          | error e1 => simp [PoaMiner.advance, hf, hv, hp, hr]
          | ok bh =>
            cases hn : env.new_payload_response with
            | error e2 => simp [PoaMiner.advance, hf, hv, hp, hr, hn]
            | ok npValid =>
              cases npValid with
              | false => simp [PoaMiner.advance, hf, hv, hp, hr, hn]
              | true => simp [PoaMiner.advance, hf, hv, hp, hr, hn] at h

/-- Case analysis of one `advance` call that succeeded: a block hash was
resolved and the state was committed with the new timestamp and the pushed
(and possibly trimmed) window. -/
theorem advance_ok_state (m : PoaMiner) (env : AdvanceEnv)
    (h : (m.advance env).2 = .ok ()) :
    ∃ block_hash, env.resolved_payload = some (.ok block_hash) ∧
      (m.advance env).1 =
        { m with
            last_timestamp := max (m.last_timestamp + 1) env.now
            last_block_hashes :=
              if (m.last_block_hashes ++ [block_hash]).length > 64
              then (m.last_block_hashes ++ [block_hash]).tail
              else m.last_block_hashes ++ [block_hash] } := by
  cases hf : env.forkchoice_response with
  | error e0 => simp [PoaMiner.advance, hf] at h
  | ok res =>
    cases hv : res.valid with
    | false => simp [PoaMiner.advance, hf, hv] at h
    | true =>
      cases hp : res.payload_id with
      | none => simp [PoaMiner.advance, hf, hv, hp] at h
      | some pid =>
        cases hr : env.resolved_payload with
        | none => simp [PoaMiner.advance, hf, hv, hp, hr] at h
        | some r =>
          cases r with
          | error e1 => simp [PoaMiner.advance, hf, hv, hp, hr] at h
          | ok bh =>
            cases hn : env.new_payload_response with
            | error e2 => simp [PoaMiner.advance, hf, hv, hp, hr, hn] at h
            | ok npValid =>
              cases npValid with
              | false => simp [PoaMiner.advance, hf, hv, hp, hr, hn] at h
              | true =>
                exact ⟨bh, rfl, by simp [PoaMiner.advance, hf, hv, hp, hr, hn]⟩

/-- One tick, successful or not, keeps the window length within the bound. -/
theorem advance_length_le (m : PoaMiner) (env : AdvanceEnv)
    (h : m.last_block_hashes.length ≤ 64) :
    (m.advance env).1.last_block_hashes.length ≤ 64 := by
  cases he : (m.advance env).2 with
  | error e => rw [advance_error_state m env e he]; exact h
  | ok u =>
    obtain ⟨bh, _, hs⟩ := advance_ok_state m env (by cases u; exact he)
    rw [hs]
    show (if (m.last_block_hashes ++ [bh]).length > 64
          then (m.last_block_hashes ++ [bh]).tail
          else m.last_block_hashes ++ [bh]).length ≤ 64
    split_ifs with hgt
    · simp only [List.length_tail, List.length_append, List.length_singleton] at hgt ⊢
      omega
    · simp only [List.length_append, List.length_singleton] at hgt ⊢
      omega

/-- A call the follower makes on the consensus engine handle, in program
order. -/
inductive EngineCall where
  | new_payload (block_hash : Nat)
  | fork_choice_updated (state : ForkchoiceState)
deriving DecidableEq, Repr

/-- The outcome of the follower's per-notification block fetch
(`provider.get_block_by_number(..).full().await`, an `eyre`-wrapped
`Result<Option<_>>`): the call itself failed, it returned no block, or it
returned a block (represented by its JSON serialization, which by
`serde_json::to_value`'s contract on a block response cannot fail). -/
inductive FetchOutcome where
  | fetch_error
  | block_not_found
  | block_found (serialized : Json)

/-- One iteration of the notification loop of `PoaFollower::run`:
given the outcome of the block fetch, the engine calls the follower issues.
`none` models a panic of the iteration: the code calls `.unwrap()` on the
fetch result, so a failed fetch never reaches the `Err` branch that logs and
skips — only `Ok(None)` does (via the `ok_or_else`).  On a fetched block the
JSON is normalized with `rename_uncles_to_ommers`, the block is rebuilt and
submitted through `new_payload`, then `fork_choice_updated` is issued with
head = safe = finalized = the new block's hash.  `block_hash_of` abstracts
the deserialization / block construction / `payload.block_hash()` pipeline
between the normalized JSON and the hash. -/
def process_notification (block_hash_of : Json → Nat) : FetchOutcome → Option (List EngineCall)
  | .fetch_error => none
  | .block_not_found => some []
  | .block_found j =>
      some [EngineCall.new_payload (block_hash_of (rename_uncles_to_ommers j)),
            EngineCall.fork_choice_updated
              (ForkchoiceState.mk (block_hash_of (rename_uncles_to_ommers j))
                (block_hash_of (rename_uncles_to_ommers j))
                (block_hash_of (rename_uncles_to_ommers j)))]

theorem getD_zero_eq_headD (l : List Nat) : l.getD 0 0 = l.headD 0 := by
  cases l <;> rfl

theorem tail_append_singleton {l : List Nat} (x : Nat) (h : l ≠ []) :
    (l ++ [x]).tail = l.tail ++ [x] := by
  cases l with
  | nil => exact absurd rfl h
  | cons a t => rfl

/-- C1 fails on the code: with two accumulated hashes (fewer than 32) the
safe hash is the entry at index `len - 32 = 0`, the *oldest* hash, which
differs from the head. -/
theorem forkchoice_safe_ne_head_counterexample :
    (PoaMiner.mk 5 0 [7, 8]).last_block_hashes.length < 32 ∧
    (PoaMiner.mk 5 0 [7, 8]).forkchoice_state.safe_block_hash
      ≠ (PoaMiner.mk 5 0 [7, 8]).forkchoice_state.head_block_hash := by
  decide

/-- C1 (amended): `forkchoice_state()` returns head = the last (most recent)
entry; safe = the entry at index `len - 32` (saturating), which is the oldest
retained entry whenever at most 32 hashes have accumulated; finalized = the
entry at index `len - 64` (saturating), the oldest entry whenever at most 64
have accumulated; once `len = i + 32` (resp. `i + 64`) safe (resp. finalized)
is the entry at index `i`, i.e. 31 (resp. 63) positions behind head. -/
theorem forkchoice_state_window (m : PoaMiner) (h : m.last_block_hashes ≠ []) :
    m.forkchoice_state.head_block_hash = m.last_block_hashes.getLast h ∧
    (m.last_block_hashes.length ≤ 32 →
      m.forkchoice_state.safe_block_hash = m.last_block_hashes.headD 0) ∧
    (m.last_block_hashes.length ≤ 64 →
      m.forkchoice_state.finalized_block_hash = m.last_block_hashes.headD 0) ∧
    (∀ i, m.last_block_hashes.length = i + 32 →
      m.forkchoice_state.safe_block_hash = m.last_block_hashes.getD i 0) ∧
    (∀ i, m.last_block_hashes.length = i + 64 →
      m.forkchoice_state.finalized_block_hash = m.last_block_hashes.getD i 0) := by
  refine ⟨?_, ?_, ?_, ?_, ?_⟩
  · show m.last_block_hashes.getLastD 0 = m.last_block_hashes.getLast h
    rw [List.getLastD_eq_getLast?, List.getLast?_eq_getLast _ h]
    rfl
  · intro hlen
    show m.last_block_hashes.getD (m.last_block_hashes.length - 32) 0
        = m.last_block_hashes.headD 0
    have h0 : m.last_block_hashes.length - 32 = 0 := by omega
    rw [h0, getD_zero_eq_headD]
  · intro hlen
    show m.last_block_hashes.getD (m.last_block_hashes.length - 64) 0
        = m.last_block_hashes.headD 0
    have h0 : m.last_block_hashes.length - 64 = 0 := by omega
    rw [h0, getD_zero_eq_headD]
  · intro i hlen
    show m.last_block_hashes.getD (m.last_block_hashes.length - 32) 0
        = m.last_block_hashes.getD i 0
    have h0 : m.last_block_hashes.length - 32 = i := by omega
    rw [h0]
  · intro i hlen
    show m.last_block_hashes.getD (m.last_block_hashes.length - 64) 0
        = m.last_block_hashes.getD i 0
    have h0 : m.last_block_hashes.length - 64 = i := by omega
    rw [h0]

/-- C1 witness: the amended characterization applied to a concrete window of
two hashes. -/
theorem forkchoice_state_window_witness :
    (PoaMiner.mk 5 0 [7, 8]).forkchoice_state.safe_block_hash
      = (PoaMiner.mk 5 0 [7, 8]).last_block_hashes.headD 0 :=
  (forkchoice_state_window (PoaMiner.mk 5 0 [7, 8]) (by decide)).2.1 (by decide)

/-- C2: on every successful `advance` the committed timestamp equals
`max(last_timestamp + 1, now)` and is strictly greater than the previous
block's timestamp, even when the wall clock has not advanced past it. -/
theorem advance_timestamp_monotone (m : PoaMiner) (env : AdvanceEnv)
    (h : (m.advance env).2 = .ok ()) :
    (m.advance env).1.last_timestamp = max (m.last_timestamp + 1) env.now ∧
    m.last_timestamp < (m.advance env).1.last_timestamp := by
  obtain ⟨bh, _, hs⟩ := advance_ok_state m env h
  rw [hs]
  refine ⟨rfl, ?_⟩
  show m.last_timestamp < max (m.last_timestamp + 1) env.now
  omega

/-- C2 witness: a successful tick with the wall clock (50) behind the last
timestamp (100) still commits 101. -/
theorem advance_timestamp_monotone_witness :
    ((PoaMiner.mk 5 100 [7]).advance
        (AdvanceEnv.mk 50 (.ok (ForkchoiceUpdatedResponse.mk true (some 1)))
          (some (.ok 99)) (.ok true))).1.last_timestamp = max (100 + 1) 50 ∧
    100 < ((PoaMiner.mk 5 100 [7]).advance
        (AdvanceEnv.mk 50 (.ok (ForkchoiceUpdatedResponse.mk true (some 1)))
          (some (.ok 99)) (.ok true))).1.last_timestamp :=
  advance_timestamp_monotone _ _ rfl

/-- C3: across any sequence of ticks the window never exceeds 64 hashes, and
one successful tick appends the resolved block hash at the back — keeping the
front when fewer than 64 hashes were held, evicting exactly the oldest
(front) hash when the append would make the length 65. -/
theorem advance_window_fifo (m : PoaMiner) (envs : List AdvanceEnv) (env : AdvanceEnv)
    (hlen : m.last_block_hashes.length ≤ 64) :
    (m.advanceAll envs).last_block_hashes.length ≤ 64 ∧
    ((m.advance env).2 = .ok () → ∀ bh, env.resolved_payload = some (.ok bh) →
      ((m.last_block_hashes.length < 64 →
          (m.advance env).1.last_block_hashes = m.last_block_hashes ++ [bh]) ∧
       (m.last_block_hashes.length = 64 →
          (m.advance env).1.last_block_hashes = m.last_block_hashes.tail ++ [bh]))) := by
  constructor
  · induction envs generalizing m with
    | nil => exact hlen
    | cons e rest ih => exact ih _ (advance_length_le m e hlen)
  · intro hok bh hbh
    obtain ⟨bh', hbh', hs⟩ := advance_ok_state m env hok
    rw [hbh'] at hbh
    simp only [Option.some.injEq, Except.ok.injEq] at hbh
    subst hbh
    constructor
    · intro hlt
      rw [hs]
      show (if (m.last_block_hashes ++ [bh']).length > 64
            then (m.last_block_hashes ++ [bh']).tail
            else m.last_block_hashes ++ [bh']) = m.last_block_hashes ++ [bh']
      rw [if_neg]
      simp only [List.length_append, List.length_singleton]
      omega
    · intro heq
      rw [hs]
      show (if (m.last_block_hashes ++ [bh']).length > 64
            then (m.last_block_hashes ++ [bh']).tail
            else m.last_block_hashes ++ [bh']) = m.last_block_hashes.tail ++ [bh']
      rw [if_pos (by simp only [List.length_append, List.length_singleton]; omega)]
      exact tail_append_singleton bh' (by intro hnil; rw [hnil] at heq; simp at heq)

/-- C3 witness: a window of one hash stays within the bound, and a
successful tick appends the resolved hash 99 at the back. -/
theorem advance_window_fifo_witness :
    ((PoaMiner.mk 5 0 [7]).advanceAll []).last_block_hashes.length ≤ 64 ∧
    ((PoaMiner.mk 5 0 [7]).advance
        (AdvanceEnv.mk 100 (.ok (ForkchoiceUpdatedResponse.mk true (some 1)))
          (some (.ok 99)) (.ok true))).1.last_block_hashes = [7] ++ [99] := by
  have h := advance_window_fifo (PoaMiner.mk 5 0 [7]) []
    (AdvanceEnv.mk 100 (.ok (ForkchoiceUpdatedResponse.mk true (some 1)))
      (some (.ok 99)) (.ok true)) (by decide)
  exact ⟨h.1, (h.2 rfl 99 rfl).1 (by decide)⟩

/-- C4: a tick that fails at any step — forkchoice round trip error or
invalid response, missing payload id, unresolved payload, new-payload round
trip error or invalid response — leaves `last_timestamp` and
`last_block_hashes` exactly as they were. -/
theorem advance_failure_preserves_state (m : PoaMiner) (env : AdvanceEnv) (e : String)
    (h : (m.advance env).2 = .error e) :
    (m.advance env).1.last_timestamp = m.last_timestamp ∧
    (m.advance env).1.last_block_hashes = m.last_block_hashes := by
  rw [advance_error_state m env e h]
  exact ⟨rfl, rfl⟩

/-- C4 witness: a tick failing at the "missing payload id" step keeps the
state (timestamp 0, window `[7]`) unchanged. -/
theorem advance_failure_preserves_state_witness :
    ((PoaMiner.mk 5 0 [7]).advance
        (AdvanceEnv.mk 100 (.ok (ForkchoiceUpdatedResponse.mk true none))
          none (.ok true))).1.last_timestamp = 0 ∧
    ((PoaMiner.mk 5 0 [7]).advance
        (AdvanceEnv.mk 100 (.ok (ForkchoiceUpdatedResponse.mk true none))
          none (.ok true))).1.last_block_hashes = [7] :=
  advance_failure_preserves_state _ _ "No payload id" rfl

/-- C5: schema normalization is idempotent — applying
`rename_uncles_to_ommers` to its own output returns that output unchanged. -/
theorem rename_uncles_to_ommers_idempotent (j : Json) :
    rename_uncles_to_ommers (rename_uncles_to_ommers j) = rename_uncles_to_ommers j :=
  rename_eq_self_of_hasUncles_eq_false (hasUncles_rename_eq_false j)

/-- C6: the normalization renames `"uncles"` to `"ommers"` in every object at
every depth (no `"uncles"` key survives anywhere in the output), recurses
into arrays item-wise, leaves every sibling key in place with its value only
recursively normalized, and stores the old `"uncles"` value under
`"ommers"`. -/
theorem rename_uncles_to_ommers_all_depths :
    (∀ j : Json, hasUncles (rename_uncles_to_ommers j) = false) ∧
    (∀ items : List Json,
      rename_uncles_to_ommers (Json.arr items) = Json.arr (items.map rename_uncles_to_ommers)) ∧
    (∀ (fields : List (String × Json)) (k : String), k ≠ "uncles" → k ≠ "ommers" →
      (rename_uncles_to_ommers (Json.obj fields)).get k
        = ((Json.obj fields).get k).map rename_uncles_to_ommers) ∧
    (∀ (fields : List (String × Json)) (u : Json), lookupKey "uncles" fields = some u →
      (rename_uncles_to_ommers (Json.obj fields)).get "ommers"
          = some (rename_uncles_to_ommers u) ∧
      (rename_uncles_to_ommers (Json.obj fields)).get "uncles" = none) := by
  refine ⟨hasUncles_rename_eq_false, rename_arr, ?_, ?_⟩
  · intro fields k h1 h2
    rw [rename_obj]
    show lookupKey k ((renameStep fields).map (fun kv => (kv.1, rename_uncles_to_ommers kv.2)))
        = (lookupKey k fields).map rename_uncles_to_ommers
    rw [lookupKey_map_value, lookupKey_renameStep_ne h1 h2]
  · intro fields u hu
    constructor
    · rw [rename_obj]
      show lookupKey "ommers"
          ((renameStep fields).map (fun kv => (kv.1, rename_uncles_to_ommers kv.2)))
          = some (rename_uncles_to_ommers u)
      rw [lookupKey_map_value, lookupKey_renameStep_ommers hu]
      rfl
    · rw [rename_obj]
      show lookupKey "uncles"
          ((renameStep fields).map (fun kv => (kv.1, rename_uncles_to_ommers kv.2)))
          = none
      rw [lookupKey_map_value, lookupKey_renameStep_uncles]
      rfl

/-- C6 witness: on a concrete object the sibling `"hash"` entry is preserved
and the `"uncles"` value reappears under `"ommers"`. -/
theorem rename_uncles_to_ommers_all_depths_witness :
    (rename_uncles_to_ommers (Json.obj [("hash", Json.num 1), ("uncles", Json.num 2)])).get "hash"
        = ((Json.obj [("hash", Json.num 1), ("uncles", Json.num 2)]).get "hash").map
            rename_uncles_to_ommers ∧
    (rename_uncles_to_ommers (Json.obj [("hash", Json.num 1), ("uncles", Json.num 2)])).get
        "ommers" = some (rename_uncles_to_ommers (Json.num 2)) :=
  ⟨rename_uncles_to_ommers_all_depths.2.2.1 [("hash", Json.num 1), ("uncles", Json.num 2)]
      "hash" (by decide) (by decide),
   (rename_uncles_to_ommers_all_depths.2.2.2 [("hash", Json.num 1), ("uncles", Json.num 2)]
      (Json.num 2) (by simp [lookupKey])).1⟩

/-- C7: a tree containing no `"uncles"` field at any depth is returned
structurally unchanged by the normalization. -/
theorem rename_uncles_to_ommers_identity_without_uncles (j : Json)
    (h : hasUncles j = false) : rename_uncles_to_ommers j = j :=
  rename_eq_self_of_hasUncles_eq_false h

/-- C7 witness: a concrete uncle-free object is returned unchanged. -/
theorem rename_uncles_to_ommers_identity_without_uncles_witness :
    rename_uncles_to_ommers
        (Json.obj [("number", Json.str "0x1"), ("transactions", Json.arr [])])
      = Json.obj [("number", Json.str "0x1"), ("transactions", Json.arr [])] :=
  rename_uncles_to_ommers_identity_without_uncles _
    (by simp +decide [hasUncles_obj, hasUncles_str, hasUncles_arr])

/-- C8: for every relayed block, right after the `new_payload` call the
follower issues `fork_choice_updated` with head, safe and finalized all equal
to the new block's hash. -/
theorem follower_forkchoice_equals_new_block (block_hash_of : Json → Nat) (j : Json) :
    ∃ h : Nat,
      process_notification block_hash_of (FetchOutcome.block_found j)
        = some [EngineCall.new_payload h,
                EngineCall.fork_choice_updated (ForkchoiceState.mk h h h)] ∧
      h = block_hash_of (rename_uncles_to_ommers j) :=
  ⟨block_hash_of (rename_uncles_to_ommers j), rfl, rfl⟩

/-- C9 evaluated on the failing input: a fetch that returns `Err` panics the
relay (the `.unwrap()`), modelled as `none` — it is not logged-and-skipped;
only the "no block" outcome is skipped (no engine calls, loop continues). -/
theorem follower_fetch_error_panics :
    process_notification (fun _ => 0) FetchOutcome.fetch_error = none ∧
    process_notification (fun _ => 0) FetchOutcome.block_not_found = some [] :=
  ⟨rfl, rfl⟩

/-- C10: when an object holds both an `"uncles"` and an `"ommers"` field, the
normalization stores the (normalized) `"uncles"` value under `"ommers"`,
silently overwriting the pre-existing `"ommers"` value, which is therefore
absent from the result whenever it differs. -/
theorem rename_overwrites_preexisting_ommers (fields : List (String × Json)) (u o : Json)
    (hu : lookupKey "uncles" fields = some u)
    (_ho : lookupKey "ommers" fields = some o) :
    (rename_uncles_to_ommers (Json.obj fields)).get "ommers"
        = some (rename_uncles_to_ommers u) ∧
    (rename_uncles_to_ommers u ≠ rename_uncles_to_ommers o →
      (rename_uncles_to_ommers (Json.obj fields)).get "ommers"
        ≠ some (rename_uncles_to_ommers o)) := by
  have h1 : (rename_uncles_to_ommers (Json.obj fields)).get "ommers"
      = some (rename_uncles_to_ommers u) := by
    rw [rename_obj]
    show lookupKey "ommers"
        ((renameStep fields).map (fun kv => (kv.1, rename_uncles_to_ommers kv.2)))
        = some (rename_uncles_to_ommers u)
    rw [lookupKey_map_value, lookupKey_renameStep_ommers hu]
    rfl
  refine ⟨h1, fun hne => ?_⟩
  rw [h1]
  simpa using hne

/-- C10 witness: with `"ommers" : 1` pre-existing and `"uncles" : 2`, the
result's `"ommers"` entry is the old `"uncles"` value. -/
theorem rename_overwrites_preexisting_ommers_witness :
    (rename_uncles_to_ommers (Json.obj [("ommers", Json.num 1), ("uncles", Json.num 2)])).get
        "ommers" = some (rename_uncles_to_ommers (Json.num 2)) :=
  (rename_overwrites_preexisting_ommers [("ommers", Json.num 1), ("uncles", Json.num 2)]
      (Json.num 2) (Json.num 1) (by simp [lookupKey]) (by simp [lookupKey])).1
